import Mathlib

/-!
# Verification of CineAI's script parser and video assembler

Shallow embedding of the two core functions of `src/utils.py`:
`parse_structured_script` (script text → cue list) and `assemble_video`
(cut list → composed segments → rendered file).  Python strings are
modelled as `List Char`; Python floats appearing in cut lists are
modelled as `ℚ` (only ordering and presence matter to the verified
properties); the external media operations performed by MoviePy
(sub-clip extraction, b-roll loading, text rendering, compositing,
concatenation, encoding) are modelled by a record of success oracles,
since only the control flow around them is verified.
-/

/-- Python strings are modelled as lists of characters. -/
abbrev Str := List Char

/-- Convert a Lean string literal to the `Str` model. -/
def str (s : String) : Str := s.data

/-- Whitespace test used by Python's `str.strip()` (restricted to the
common ASCII whitespace characters). -/
def isSpaceChar (c : Char) : Bool :=
  c == ' ' || c == '\t' || c == '\n' || c == '\r'

/-- Model of Python `str.strip()`: drop whitespace from both ends. -/
def trimStr (l : Str) : Str :=
  ((l.dropWhile isSpaceChar).reverse.dropWhile isSpaceChar).reverse

/-- Model of Python `str.lower()` (ASCII case folding). -/
def lowerStr (l : Str) : Str := l.map Char.toLower

/-- Model of Python `text.split('\n')`. -/
def splitLines : Str → List Str
  | [] => [[]]
  | c :: rest =>
    if c == '\n' then [] :: splitLines rest
    else
      match splitLines rest with
      | [] => [[c]]
      | s :: ss => (c :: s) :: ss

/-- Model of Python `enumerate` starting at `n`. -/
def enumL (n : Nat) : List α → List (Nat × α)
  | [] => []
  | a :: rest => (n, a) :: enumL (n + 1) rest

/-- Model of Python `needle in hay` (substring containment). -/
def containsSub (needle : Str) : Str → Bool
  | [] => needle.isEmpty
  | c :: rest => needle.isPrefixOf (c :: rest) || containsSub needle rest

/-- Model of Python `list.index` on a list of naturals (first position of
the element; total function, only ever applied to members). -/
def idxOfNat : List Nat → Nat → Nat
  | [], _ => 0
  | a :: rest, x => if a = x then 0 else idxOfNat rest x + 1

/-- One parsed script cue, `{'type': ..., 'content': ..., 'dialogue_index': ...}`
in the Python source (`src/utils.py`, `parse_structured_script`). -/
structure Cue where
  type : Str
  content : Str
  dialogue_index : Int
deriving DecidableEq, Repr

/-- The recognised marker lines of `parse_structured_script`. -/
def cueMarkers : List Str := [str "dialogue:", str "b-roll:", str "overlay:"]

/-- Model of `clean_line.replace(':', '')` (the pattern is a single
character, so the replacement removes every colon). -/
def removeColons (l : Str) : Str := l.filter (fun c => !(c == ':'))

/-- `dialogue_indices = [i for i, line in enumerate(lines) if
line.strip().lower() == 'dialogue:']` from `parse_structured_script`. -/
def dialogueIndices (lines : List Str) : List Nat :=
  ((enumL 0 lines).filter (fun p => lowerStr (trimStr p.2) == str "dialogue:")).map Prod.fst

/-- The inner loop of `parse_structured_script` computing
`last_dialogue_index` for a non-dialogue cue at line `i`: iterate over all
dialogue marker line indices, remembering `dialogue_indices.index(idx)` of
the last one strictly below `i`, starting from `-1`. -/
def lastDialogueIndex (ds : List Nat) (i : Nat) : Int :=
  ds.foldl (fun acc d => if d < i then (idxOfNat ds d : Int) else acc) (-1)

/-- The main loop of `parse_structured_script`: scan the enumerated lines,
threading the `dialogue_count` counter. -/
def parseLoop (lines : List Str) (ds : List Nat) :
    List (Nat × Str) → Nat → List Cue
  | [], _ => []
  | (i, line) :: rest, dcount =>
    let clean := lowerStr (trimStr line)
    if cueMarkers.contains clean then
      let cue_type := removeColons clean
      if i + 1 < lines.length then
        let content := trimStr (lines.getD (i + 1) [])
        if content.isEmpty then
          parseLoop lines ds rest dcount
        else
          if cue_type == str "dialogue" then
            ⟨cue_type, content, (dcount : Int)⟩ :: parseLoop lines ds rest (dcount + 1)
          else
            ⟨cue_type, content, lastDialogueIndex ds i⟩ :: parseLoop lines ds rest dcount
      else parseLoop lines ds rest dcount
    else parseLoop lines ds rest dcount

/-- `parse_structured_script` from `src/utils.py`: split the text into
lines, precompute the dialogue marker line indices, and run the scan. -/
def parse_structured_script (text : Str) : List Cue :=
  let lines := splitLines text
  parseLoop lines (dialogueIndices lines) (enumL 0 lines) 0

/-- Instrumented copy of `parseLoop` that additionally records the marker
line index each cue was emitted at (proved to erase to `parseLoop`). -/
def parseLoopIdx (lines : List Str) (ds : List Nat) :
    List (Nat × Str) → Nat → List (Nat × Cue)
  | [], _ => []
  | (i, line) :: rest, dcount =>
    let clean := lowerStr (trimStr line)
    if cueMarkers.contains clean then
      let cue_type := removeColons clean
      if i + 1 < lines.length then
        let content := trimStr (lines.getD (i + 1) [])
        if content.isEmpty then
          parseLoopIdx lines ds rest dcount
        else
          if cue_type == str "dialogue" then
            (i, ⟨cue_type, content, (dcount : Int)⟩) :: parseLoopIdx lines ds rest (dcount + 1)
          else
            (i, ⟨cue_type, content, lastDialogueIndex ds i⟩) :: parseLoopIdx lines ds rest dcount
      else parseLoopIdx lines ds rest dcount
    else parseLoopIdx lines ds rest dcount

/-- `parse_structured_script` with each cue tagged by its marker line. -/
def parseIdx (text : Str) : List (Nat × Cue) :=
  let lines := splitLines text
  parseLoopIdx lines (dialogueIndices lines) (enumL 0 lines) 0

example : str "ab" = ['a', 'b'] := by decide

example :
    parse_structured_script (str "dialogue:\nHello world\nb-roll:\n[office]\ndialogue:\nBye") =
      [⟨str "dialogue", str "Hello world", 0⟩,
       ⟨str "b-roll", str "[office]", 0⟩,
       ⟨str "dialogue", str "Bye", 1⟩] := by decide

/-! ## Facts about the auxiliary functions -/

theorem enumL_map_fst (n : Nat) (l : List α) :
    (enumL n l).map Prod.fst = List.range' n l.length := by
  induction l generalizing n with
  | nil => rfl
  | cons a t ih => simp [enumL, List.range', ih]

theorem mem_enumL {n : Nat} {l : List α} {i : Nat} {x : α} :
    (i, x) ∈ enumL n l ↔ ∃ j, i = n + j ∧ l[j]? = some x := by
  induction l generalizing n with
  | nil => simp [enumL]
  | cons a t ih =>
    simp only [enumL, List.mem_cons, ih, Prod.mk.injEq]
    constructor
    · rintro (⟨rfl, rfl⟩ | ⟨j, rfl, h2⟩)
      · exact ⟨0, by omega, by simp⟩
      · exact ⟨j + 1, by omega, by simpa using h2⟩
    · rintro ⟨j, rfl, h2⟩
      cases j with
      | zero => left; simp at h2; exact ⟨by omega, h2.symm⟩
      | succ j => right; exact ⟨j, by omega, by simpa using h2⟩

theorem fst_le_of_mem_enumL {n : Nat} {l : List α} {p : Nat × α}
    (h : p ∈ enumL n l) : n ≤ p.1 := by
  obtain ⟨i, x⟩ := p
  obtain ⟨j, rfl, -⟩ := mem_enumL.mp h
  omega

theorem pairwise_fst_enumL (n : Nat) (l : List α) :
    List.Pairwise (fun p q => p.1 < q.1) (enumL n l) := by
  induction l generalizing n with
  | nil => exact List.Pairwise.nil
  | cons a t ih =>
    refine List.Pairwise.cons (fun q hq => ?_) (ih (n + 1))
    have := fst_le_of_mem_enumL hq
    show n < q.1
    omega

theorem dialogueIndices_sorted (lines : List Str) :
    List.Pairwise (· < ·) (dialogueIndices lines) := by
  unfold dialogueIndices
  rw [List.pairwise_map]
  exact (pairwise_fst_enumL 0 lines).filter _

theorem mem_dialogueIndices {lines : List Str} {i : Nat} :
    i ∈ dialogueIndices lines ↔
      i < lines.length ∧ lowerStr (trimStr (lines.getD i [])) = str "dialogue:" := by
  unfold dialogueIndices
  simp only [List.mem_map, List.mem_filter]
  constructor
  · rintro ⟨⟨j, x⟩, ⟨hmem, hcond⟩, rfl⟩
    obtain ⟨k, hk, hx⟩ := mem_enumL.mp hmem
    have hklen : k < lines.length := by
      have := List.getElem?_eq_some.mp hx
      exact this.1
    have hget : lines.getD k [] = x := by
      rw [List.getD_eq_getElem?_getD, hx]; rfl
    have hjk : j = k := by omega
    subst hjk
    refine ⟨hklen, ?_⟩
    rw [hget]
    simpa using hcond
  · rintro ⟨hlen, hcond⟩
    refine ⟨(i, lines.getD i []), ⟨mem_enumL.mpr ⟨i, by omega, ?_⟩, ?_⟩, rfl⟩
    · rw [List.getElem?_eq_getElem hlen, List.getD_eq_getElem?_getD,
        List.getElem?_eq_getElem hlen]
      rfl
    · simpa using hcond

theorem idxOfNat_eq (ds : List Nat) (hs : List.Pairwise (· < ·) ds) {d : Nat}
    (hd : d ∈ ds) :
    idxOfNat ds d = (ds.filter (fun x => decide (x < d))).length := by
  induction ds with
  | nil => cases hd
  | cons a t ih =>
    obtain ⟨ha, ht⟩ := List.pairwise_cons.mp hs
    by_cases h : a = d
    · subst h
      have hnil : t.filter (fun x => decide (x < a)) = [] := by
        rw [List.filter_eq_nil_iff]
        intro x hx
        have := ha x hx
        simp
        omega
      simp [idxOfNat, List.filter_cons, hnil]
    · have hd' : d ∈ t := by
        rcases List.mem_cons.mp hd with h' | h'
        · exact absurd h'.symm h
        · exact h'
      have had : a < d := ha d hd'
      simp only [idxOfNat, if_neg h, List.filter_cons, had, decide_True]
      rw [ih ht hd']
      simp

theorem foldl_choose_last {i : Nat} (g : Nat → Int) (l : List Nat) (a : Int) :
    l.foldl (fun acc d => if d < i then g d else acc) a =
      ((l.filter (fun d => decide (d < i))).getLast?).elim a g := by
  induction l generalizing a with
  | nil => rfl
  | cons b t ih =>
    by_cases hb : b < i
    · rw [List.foldl_cons, if_pos hb, ih, List.filter_cons]
      simp only [hb, decide_True, if_true]
      cases h : (t.filter (fun d => decide (d < i))).getLast? with
      | none =>
        have : t.filter (fun d => decide (d < i)) = [] := by
          rwa [List.getLast?_eq_none_iff] at h
        simp [this]
      | some d =>
        simp [List.getLast?_cons, h]
    · rw [List.foldl_cons, if_neg hb, ih, List.filter_cons]
      simp [hb]

/-- Modelled from the spec: the `dialogue_index` of a non-dialogue cue is
"the rank of the nearest preceding dialogue marker, or -1 if none
precedes" — the 0-based rank, among all dialogue-marker lines, of the last
dialogue-marker line whose index is strictly below `i`. -/
def precedingRank (ds : List Nat) (i : Nat) : Int :=
  let before := ds.filter (fun d => decide (d < i))
  if before.isEmpty then -1 else (before.length : Int) - 1

theorem lastDialogueIndex_eq_precedingRank (ds : List Nat)
    (hs : List.Pairwise (· < ·) ds) (i : Nat) :
    lastDialogueIndex ds i = precedingRank ds i := by
  unfold lastDialogueIndex precedingRank
  rw [foldl_choose_last]
  set F := ds.filter (fun d => decide (d < i)) with hF
  cases h : F.getLast? with
  | none =>
    have hFnil : F = [] := by rwa [List.getLast?_eq_none_iff] at h
    simp [hFnil]
  | some d =>
    have hFne : F ≠ [] := by intro h0; rw [h0] at h; cases h
    have hlast : F.getLast hFne = d := by
      have hx := List.getLast?_eq_getLast F hFne
      rw [h] at hx
      exact (Option.some_inj.mp hx).symm
    have hdF : d ∈ F := hlast ▸ List.getLast_mem hFne
    have hdds : d ∈ ds := (List.mem_filter.mp hdF).1
    have hdi : d < i := by have := (List.mem_filter.mp hdF).2; simpa using this
    simp only [Option.elim]
    rw [idxOfNat_eq ds hs hdds]
    rw [if_neg (by simpa using hFne)]
    have hFp : List.Pairwise (· < ·) F := hs.filter _
    have h2 : F.dropLast ++ [d] = F := by
      rw [← hlast]; exact List.dropLast_append_getLast hFne
    have h1 : ds.filter (fun x => decide (x < d)) = F.filter (fun x => decide (x < d)) := by
      rw [hF, List.filter_filter]
      apply List.filter_congr
      intro x hx
      by_cases hxd : x < d
      · have : x < i := by omega
        simp [hxd, this]
      · simp [hxd]
    have h3 : ∀ x ∈ F.dropLast, x < d := by
      intro x hx
      have hp : List.Pairwise (· < ·) (F.dropLast ++ [d]) := by
        rw [h2]; exact hFp
      exact (List.pairwise_append.mp hp).2.2 x hx d (by simp)
    have h4 : F.filter (fun x => decide (x < d)) = F.dropLast := by
      conv_lhs => rw [← h2]
      rw [List.filter_append]
      have hx1 : F.dropLast.filter (fun x => decide (x < d)) = F.dropLast := by
        rw [List.filter_eq_self]
        intro x hx
        simpa using h3 x hx
      have hx2 : [d].filter (fun x => decide (x < d)) = [] := by simp
      rw [hx1, hx2, List.append_nil]
    rw [h1, h4]
    have : F.length = F.dropLast.length + 1 := by
      conv_lhs => rw [← h2]
      simp
    omega

/-! ## Structural lemmas about the parser loop -/

theorem mem_cueMarkers {clean : Str} (h : cueMarkers.contains clean = true) :
    clean = str "dialogue:" ∨ clean = str "b-roll:" ∨ clean = str "overlay:" := by
  have hm : clean ∈ cueMarkers := by
    simpa [List.contains, List.elem_iff] using h
  simpa [cueMarkers] using hm

theorem marker_type_eq {clean : Str} (h : cueMarkers.contains clean = true) :
    (removeColons clean == str "dialogue") = (clean == str "dialogue:") := by
  rcases mem_cueMarkers h with rfl | rfl | rfl <;> decide

theorem not_marker_not_dialogue {clean : Str}
    (h : ¬ cueMarkers.contains clean = true) :
    (clean == str "dialogue:") = false := by
  by_contra hne
  have : (clean == str "dialogue:") = true := by
    cases hb : (clean == str "dialogue:") with
    | false => exact absurd hb hne
    | true => rfl
  have hcl : clean = str "dialogue:" := eq_of_beq this
  subst hcl
  exact h (by decide)

theorem parseLoop_eq_map_snd (lines : List Str) (ds : List Nat) :
    ∀ (l : List (Nat × Str)) (c : Nat),
      parseLoop lines ds l c = (parseLoopIdx lines ds l c).map Prod.snd := by
  intro l
  induction l with
  | nil => intro c; rfl
  | cons q rest ih =>
    intro c
    obtain ⟨i, line⟩ := q
    simp only [parseLoop, parseLoopIdx]
    split_ifs <;> simp [ih]

theorem parseLoopIdx_nonDialogue (lines : List Str) (ds : List Nat) :
    ∀ (l : List (Nat × Str)) (c : Nat) (p : Nat × Cue),
      p ∈ parseLoopIdx lines ds l c → p.2.type ≠ str "dialogue" →
      p.2.dialogue_index = lastDialogueIndex ds p.1 := by
  intro l
  induction l with
  | nil => intro c p hp; cases hp
  | cons q rest ih =>
    intro c p hp hnd
    obtain ⟨i, line⟩ := q
    simp only [parseLoopIdx] at hp
    split at hp
    · split at hp
      · split at hp
        · exact ih _ _ hp hnd
        · split at hp
          · rcases List.mem_cons.mp hp with rfl | hp'
            · rename_i h4
              exact absurd (eq_of_beq h4) hnd
            · exact ih _ _ hp' hnd
          · rcases List.mem_cons.mp hp with rfl | hp'
            · rfl
            · exact ih _ _ hp' hnd
      · exact ih _ _ hp hnd
    · exact ih _ _ hp hnd

theorem parseLoopIdx_fst_sublist (lines : List Str) (ds : List Nat) :
    ∀ (l : List (Nat × Str)) (c : Nat),
      ((parseLoopIdx lines ds l c).map Prod.fst).Sublist (l.map Prod.fst) := by
  intro l
  induction l with
  | nil => intro c; simp [parseLoopIdx]
  | cons q rest ih =>
    intro c
    obtain ⟨i, line⟩ := q
    simp only [parseLoopIdx]
    split_ifs with h1 h2 h3 h4
    · simpa using List.Sublist.cons i (ih c)
    · simpa using List.Sublist.cons₂ i (ih (c + 1))
    · simpa using List.Sublist.cons₂ i (ih c)
    · simpa using List.Sublist.cons i (ih c)
    · simpa using List.Sublist.cons i (ih c)

theorem parseLoopIdx_mem_conditions (lines : List Str) (ds : List Nat) :
    ∀ (l : List (Nat × Str)) (c : Nat) (p : Nat × Cue),
      p ∈ parseLoopIdx lines ds l c →
      ∃ line, (p.1, line) ∈ l ∧ cueMarkers.contains (lowerStr (trimStr line)) = true ∧
        p.1 + 1 < lines.length ∧ (trimStr (lines.getD (p.1 + 1) [])).isEmpty = false := by
  intro l
  induction l with
  | nil => intro c p hp; cases hp
  | cons q rest ih =>
    intro c p hp
    obtain ⟨i, line⟩ := q
    simp only [parseLoopIdx] at hp
    have tail_case : ∀ {c'}, p ∈ parseLoopIdx lines ds rest c' →
        ∃ line', (p.1, line') ∈ (i, line) :: rest ∧
          cueMarkers.contains (lowerStr (trimStr line')) = true ∧
          p.1 + 1 < lines.length ∧
          (trimStr (lines.getD (p.1 + 1) [])).isEmpty = false := by
      intro c' hp'
      obtain ⟨line', hmem, hrest⟩ := ih _ _ hp'
      exact ⟨line', List.mem_cons_of_mem _ hmem, hrest⟩
    split at hp
    · split at hp
      · split at hp
        · exact tail_case hp
        · rename_i h1 h2 h3
          split at hp
          · rcases List.mem_cons.mp hp with rfl | hp'
            · exact ⟨line, List.mem_cons_self _ _, h1, h2, by simpa using h3⟩
            · exact tail_case hp'
          · rcases List.mem_cons.mp hp with rfl | hp'
            · exact ⟨line, List.mem_cons_self _ _, h1, h2, by simpa using h3⟩
            · exact tail_case hp'
      · exact tail_case hp
    · exact tail_case hp

/-! ## Counting dialogue markers -/

/-- Number of dialogue-marker lines strictly below line `k`. -/
def countLt (ds : List Nat) (k : Nat) : Nat :=
  (ds.filter (fun x => decide (x < k))).length


theorem countLt_succ (ds : List Nat) (hnd : ds.Nodup) (k : Nat) :
    countLt ds (k + 1) = countLt ds k + (if k ∈ ds then 1 else 0) := by
  induction ds with
  | nil => simp [countLt]
  | cons a t ih =>
    obtain ⟨hat, hnd'⟩ := List.nodup_cons.mp hnd
    have iht := ih hnd'
    simp only [countLt, List.filter_cons] at iht ⊢
    by_cases hak : a = k
    · subst hak
      have hka : a ∈ a :: t := List.mem_cons_self a t
      have h1 : List.filter (fun x => decide (x < a + 1)) t
          = List.filter (fun x => decide (x < a)) t := by
        apply List.filter_congr
        intro x hx
        have hxa : x ≠ a := fun h => hat (h ▸ hx)
        by_cases hlt : x < a
        · have hlt1 : x < a + 1 := by omega
          simp [hlt, hlt1]
        · have hlt1 : ¬ x < a + 1 := by omega
          simp [hlt, hlt1]
      have hd1 : decide (a < a + 1) = true := by simp
      have hd2 : decide (a < a) = false := by simp
      rw [hd1, hd2, if_pos rfl, if_neg (by decide : ¬ false = true), if_pos hka, h1]
      simp
    · have hka : (k ∈ a :: t) ↔ (k ∈ t) := by
        have hne : k ≠ a := fun h => hak h.symm
        simp [List.mem_cons, hne]
      by_cases hlt : a < k
      · have hlt1 : a < k + 1 := by omega
        rw [if_pos (by simpa using hlt1), if_pos (by simpa using hlt)]
        simp only [List.length_cons]
        rw [iht]
        simp only [hka]
        omega
      · have hlt1 : ¬ a < k + 1 := by omega
        rw [if_neg (by simpa using hlt1), if_neg (by simpa using hlt)]
        rw [iht]
        simp only [hka]

theorem dialogueIndices_nodup (lines : List Str) :
    (dialogueIndices lines).Nodup :=
  (dialogueIndices_sorted lines).imp (fun h => Nat.ne_of_lt h)

theorem drop_step {lines : List Str} {k : Nat} {x : Str} {rest : List Str}
    (h : lines.drop k = x :: rest) :
    k < lines.length ∧ lines.getD k [] = x ∧ lines.drop (k + 1) = rest := by
  have hk : k < lines.length := by
    by_contra hle
    rw [List.drop_eq_nil_of_le (by omega)] at h
    cases h
  refine ⟨hk, ?_, ?_⟩
  · have h0 : lines[k]? = some x := by
      have hd := List.getElem?_drop lines k 0
      rw [h] at hd
      simpa using hd.symm
    rw [List.getD_eq_getElem?_getD, h0]
    rfl
  · have ht := List.tail_drop lines k
    rw [h] at ht
    exact ht.symm

/-- Under the hypothesis that every dialogue-marker line is followed by a
non-empty content line, an emitted dialogue cue's `dialogue_index` equals
the number of dialogue-marker lines strictly before its own marker line. -/
theorem parseLoopIdx_dialogue_count (lines : List Str)
    (H : ∀ i ∈ dialogueIndices lines, i + 1 < lines.length ∧
      (trimStr (lines.getD (i + 1) [])).isEmpty = false) :
    ∀ (rest : List Str) (k c : Nat), lines.drop k = rest →
      c = countLt (dialogueIndices lines) k →
      ∀ p ∈ parseLoopIdx lines (dialogueIndices lines) (enumL k rest) c,
        p.2.type = str "dialogue" →
        p.2.dialogue_index = (countLt (dialogueIndices lines) p.1 : Int) := by
  intro rest
  induction rest with
  | nil =>
    intro k c _ _ p hp
    simp [enumL, parseLoopIdx] at hp
  | cons x rest' ih =>
    intro k c hdrop hc p hp htype
    obtain ⟨hklen, hgetD, hdrop'⟩ := drop_step hdrop
    have hnd := dialogueIndices_nodup lines
    have hsucc := countLt_succ (dialogueIndices lines) hnd k
    have hmemds : k ∈ dialogueIndices lines ↔
        lowerStr (trimStr x) = str "dialogue:" := by
      rw [mem_dialogueIndices, hgetD]
      exact ⟨fun hh => hh.2, fun hh => ⟨hklen, hh⟩⟩
    simp only [enumL, parseLoopIdx] at hp
    split at hp
    · rename_i h1
      split at hp
      · rename_i h2
        split at hp
        · rename_i h3
          have hknot : k ∉ dialogueIndices lines := by
            intro hin
            have hne := (H k hin).2
            rw [hne] at h3
            exact Bool.noConfusion h3
          exact ih (k + 1) c hdrop'
            (by rw [hsucc, if_neg hknot]; omega) p hp htype
        · rename_i h3
          split at hp
          · rename_i h4
            have hcl : lowerStr (trimStr x) = str "dialogue:" := by
              have hmt := marker_type_eq h1
              exact eq_of_beq (hmt ▸ h4)
            have hkin : k ∈ dialogueIndices lines := hmemds.mpr hcl
            rcases List.mem_cons.mp hp with rfl | hp'
            · show (c : Int) = _
              rw [hc]
            · exact ih (k + 1) (c + 1) hdrop'
                (by rw [hsucc, if_pos hkin]; omega) p hp' htype
          · rename_i h4
            have hknot : k ∉ dialogueIndices lines := by
              intro hin
              have hcl := hmemds.mp hin
              rw [hcl] at h4
              exact absurd h4 (by decide)
            rcases List.mem_cons.mp hp with rfl | hp'
            · have hbeq : (removeColons (lowerStr (trimStr x)) == str "dialogue") = true :=
                beq_iff_eq.mpr htype
              exact absurd hbeq h4
            · exact ih (k + 1) c hdrop'
                (by rw [hsucc, if_neg hknot]; omega) p hp' htype
      · rename_i h2
        have hknot : k ∉ dialogueIndices lines := fun hin => h2 (H k hin).1
        exact ih (k + 1) c hdrop'
          (by rw [hsucc, if_neg hknot]; omega) p hp htype
    · rename_i h1
      have hknot : k ∉ dialogueIndices lines := by
        intro hin
        have hcl := hmemds.mp hin
        rw [hcl] at h1
        exact h1 (by decide)
      exact ih (k + 1) c hdrop'
        (by rw [hsucc, if_neg hknot]; omega) p hp htype

/-- An enumerated line opens a dialogue cue exactly when it is a
dialogue-marker line followed (within bounds) by non-empty content. -/
def validDialoguePred (lines : List Str) (p : Nat × Str) : Bool :=
  (lowerStr (trimStr p.2) == str "dialogue:") && (decide (p.1 + 1 < lines.length))
    && !(trimStr (lines.getD (p.1 + 1) [])).isEmpty

/-- The dialogue cues emitted by the parser loop carry the consecutive
indices `c, c+1, ...`, one per valid dialogue-marker line. -/
theorem parseLoop_dialogue_seq (lines : List Str) (ds : List Nat) :
    ∀ (l : List (Nat × Str)) (c : Nat),
      ((parseLoop lines ds l c).filter (fun cue => cue.type == str "dialogue")).map
          Cue.dialogue_index
        = (List.range' c ((l.filter (validDialoguePred lines)).length)).map Int.ofNat := by
  intro l
  induction l with
  | nil => intro c; simp [parseLoop]
  | cons q rest ih =>
    intro c
    obtain ⟨i, line⟩ := q
    simp only [parseLoop, List.filter_cons]
    by_cases h1 : cueMarkers.contains (lowerStr (trimStr line)) = true
    · by_cases h2 : i + 1 < lines.length
      · by_cases h3 : (trimStr (lines.getD (i + 1) [])).isEmpty = true
        · have hvp : validDialoguePred lines (i, line) = false := by
            simp only [validDialoguePred, h3, Bool.not_true, Bool.and_false]
          rw [if_pos h1, if_pos h2, if_pos h3, hvp]
          simpa using ih c
        · have h3' : (trimStr (lines.getD (i + 1) [])).isEmpty = false := by
            cases hb : (trimStr (lines.getD (i + 1) [])).isEmpty with
            | false => rfl
            | true => exact absurd hb h3
          by_cases h4 : (removeColons (lowerStr (trimStr line)) == str "dialogue") = true
          · have hcl : (lowerStr (trimStr line) == str "dialogue:") = true := by
              rw [← marker_type_eq h1]; exact h4
            have hvp : validDialoguePred lines (i, line) = true := by
              simp only [validDialoguePred, hcl, Bool.true_and, h3', Bool.not_false,
                Bool.and_true]
              simpa using h2
            rw [if_pos h1, if_pos h2, if_neg h3, if_pos h4, hvp]
            simp only [if_pos rfl, List.length_cons, List.filter_cons]
            rw [if_pos h4]
            simp [ih (c + 1), List.range'_succ]
          · have h4' : (removeColons (lowerStr (trimStr line)) == str "dialogue") = false := by
              cases hb : (removeColons (lowerStr (trimStr line)) == str "dialogue") with
              | false => rfl
              | true => exact absurd hb h4
            have hvp : validDialoguePred lines (i, line) = false := by
              have hcl : (lowerStr (trimStr line) == str "dialogue:") = false := by
                rw [← marker_type_eq h1]; exact h4'
              simp [validDialoguePred, hcl]
            rw [if_pos h1, if_pos h2, if_neg h3, if_neg h4, hvp]
            simp only [List.filter_cons]
            rw [h4']
            simpa using ih c
      · have hvp : validDialoguePred lines (i, line) = false := by
          simp [validDialoguePred, h2]
        rw [if_pos h1, if_neg h2, hvp]
        simpa using ih c
    · have hvp : validDialoguePred lines (i, line) = false := by
        have hcl : (lowerStr (trimStr line) == str "dialogue:") = false :=
          not_marker_not_dialogue h1
        simp [validDialoguePred, hcl]
      rw [if_neg h1, hvp]
      simpa using ih c

/-! ## Remaining parser helpers -/

theorem precedingRank_eq (ds : List Nat) (i : Nat) :
    precedingRank ds i = (countLt ds i : Int) - 1 := by
  simp only [precedingRank, countLt]
  split_ifs with h
  · rw [List.isEmpty_iff] at h
    simp [h]
  · rfl

theorem countLt_mono (ds : List Nat) {i j : Nat} (h : i ≤ j) :
    countLt ds i ≤ countLt ds j := by
  unfold countLt
  rw [← List.countP_eq_length_filter, ← List.countP_eq_length_filter]
  exact List.countP_mono_left (fun x _ hx => by simp at hx ⊢; omega)

theorem map_eq_append_split {α β : Type} {f : α → β} {l : List α} {s t : List β}
    (h : l.map f = s ++ t) :
    ∃ s' t', l = s' ++ t' ∧ s'.map f = s ∧ t'.map f = t := by
  induction s generalizing l with
  | nil => exact ⟨[], l, rfl, rfl, by simpa using h⟩
  | cons b s' ih =>
    cases l with
    | nil => simp at h
    | cons a l' =>
      simp only [List.map_cons, List.cons_append, List.cons.injEq] at h
      obtain ⟨hb, hrest⟩ := h
      obtain ⟨s'', t'', hl, hs, ht⟩ := ih hrest
      exact ⟨a :: s'', t'', by simp [hl], by simp [hs, hb], ht⟩

theorem parseIdx_pairwise_fst (text : Str) :
    List.Pairwise (fun p q : Nat × Cue => p.1 < q.1) (parseIdx text) := by
  have hsub := parseLoopIdx_fst_sublist (splitLines text)
    (dialogueIndices (splitLines text)) (enumL 0 (splitLines text)) 0
  rw [enumL_map_fst] at hsub
  have hpr : List.Pairwise (· < ·)
      ((parseLoopIdx (splitLines text) (dialogueIndices (splitLines text))
        (enumL 0 (splitLines text)) 0).map Prod.fst) :=
    List.Pairwise.sublist hsub (List.pairwise_lt_range' 0 (splitLines text).length)
  exact List.pairwise_map.mp hpr

/-! ## Claim theorems about the parser -/

/-- C1: for every script text in which every line that trims and
lower-cases to `dialogue:` is followed by a non-empty next line, the
parser emits exactly `N` dialogue cues (one per such marker line) whose
`dialogue_index` values are `0, 1, ..., N-1` in document order. -/
theorem C1_dialogue_cue_sequence (text : Str)
    (H : ∀ i ∈ dialogueIndices (splitLines text),
      i + 1 < (splitLines text).length ∧
      (trimStr ((splitLines text).getD (i + 1) [])).isEmpty = false) :
    ((parse_structured_script text).filter (fun c => c.type == str "dialogue")).map
        Cue.dialogue_index
      = (List.range (dialogueIndices (splitLines text)).length).map Int.ofNat := by
  unfold parse_structured_script
  rw [parseLoop_dialogue_seq, List.range_eq_range']
  have hfeq : (enumL 0 (splitLines text)).filter (validDialoguePred (splitLines text))
      = (enumL 0 (splitLines text)).filter
          (fun p => lowerStr (trimStr p.2) == str "dialogue:") := by
    apply List.filter_congr
    intro p hp
    by_cases hm : (lowerStr (trimStr p.2) == str "dialogue:") = true
    · have hin : p.1 ∈ dialogueIndices (splitLines text) := by
        unfold dialogueIndices
        exact List.mem_map_of_mem Prod.fst (List.mem_filter.mpr ⟨hp, hm⟩)
      obtain ⟨hl, hne⟩ := H p.1 hin
      simp only [validDialoguePred, hm, Bool.true_and, hne, Bool.not_false,
        Bool.and_true]
      simpa using hl
    · have hm' : (lowerStr (trimStr p.2) == str "dialogue:") = false := by
        cases hb : (lowerStr (trimStr p.2) == str "dialogue:") with
        | false => rfl
        | true => exact absurd hb hm
      simp [validDialoguePred, hm']
  rw [hfeq]
  unfold dialogueIndices
  rw [List.length_map]

/-- Witness for C1 at the concrete script `"dialogue:\nA\ndialogue:\nB"`. -/
theorem C1_dialogue_cue_sequence_witness :
    ((parse_structured_script (str "dialogue:\nA\ndialogue:\nB")).filter
        (fun c => c.type == str "dialogue")).map Cue.dialogue_index
      = (List.range
          (dialogueIndices (splitLines (str "dialogue:\nA\ndialogue:\nB"))).length).map
          Int.ofNat :=
  C1_dialogue_cue_sequence (str "dialogue:\nA\ndialogue:\nB") (by decide)

/-- C6: every non-dialogue cue's `dialogue_index` equals the 0-based rank,
among all dialogue-marker lines, of the last dialogue-marker line strictly
before the cue's own marker line, and `-1` when none precedes it
(`precedingRank` is the spec-side rank definition; `parseIdx` tags each
cue of `parse_structured_script` with its marker line index). -/
theorem C6_non_dialogue_rank (text : Str) :
    parse_structured_script text = (parseIdx text).map Prod.snd ∧
    ∀ p ∈ parseIdx text, p.2.type ≠ str "dialogue" →
      p.2.dialogue_index = precedingRank (dialogueIndices (splitLines text)) p.1 := by
  constructor
  · exact parseLoop_eq_map_snd (splitLines text) (dialogueIndices (splitLines text))
      (enumL 0 (splitLines text)) 0
  · intro p hp hnd
    have h1 := parseLoopIdx_nonDialogue (splitLines text)
      (dialogueIndices (splitLines text)) (enumL 0 (splitLines text)) 0 p hp hnd
    rw [h1, lastDialogueIndex_eq_precedingRank _ (dialogueIndices_sorted _)]

/-- Witness for C6: the b-roll cue of the spec's worked example sits at
marker line 2, after the dialogue marker at line 0 (rank 0). -/
theorem C6_non_dialogue_rank_witness :
    (⟨str "b-roll", str "[office]", 0⟩ : Cue).dialogue_index =
      precedingRank
        (dialogueIndices (splitLines (str "dialogue:\nHello\nb-roll:\n[office]"))) 2 :=
  (C6_non_dialogue_rank (str "dialogue:\nHello\nb-roll:\n[office]")).2
    (2, ⟨str "b-roll", str "[office]", 0⟩) (by decide) (by decide)

/-- Counterexample to C7 as stated: in the script
`"dialogue:\n\ndialogue:\n\nb-roll:\nB\ndialogue:\nD"` the two leading
dialogue markers have empty content lines and emit no cue, yet they still
count as dialogue-marker lines for the non-dialogue rank computation.  The
resulting cue sequence is a b-roll cue with `dialogue_index = 1` followed
by the next dialogue cue with `dialogue_index = 0`, so the b-roll cue's
index is NOT ≤ the index of the next dialogue cue (1 > 0). -/
theorem C7_counterexample :
    (parse_structured_script
        (str "dialogue:\n\ndialogue:\n\nb-roll:\nB\ndialogue:\nD")).map
        (fun c => (c.type, c.dialogue_index))
      = [(str "b-roll", 1), (str "dialogue", 0)] := by decide

/-- C7 (amended): (1) dialogue cues always carry strictly increasing
`dialogue_index` values in document order; (2) provided every
dialogue-marker line of the text is followed by a non-empty content line,
every non-dialogue cue's `dialogue_index` is ≤ the `dialogue_index` of the
next dialogue cue following it in the sequence. -/
theorem C7_index_monotonicity (text : Str) :
    List.Pairwise (· < ·)
      (((parse_structured_script text).filter
        (fun c => c.type == str "dialogue")).map Cue.dialogue_index) ∧
    ((∀ i ∈ dialogueIndices (splitLines text),
        i + 1 < (splitLines text).length ∧
        (trimStr ((splitLines text).getD (i + 1) [])).isEmpty = false) →
      ∀ (pre mid post : List Cue) (c d : Cue),
        parse_structured_script text = pre ++ c :: (mid ++ d :: post) →
        c.type ≠ str "dialogue" → d.type = str "dialogue" →
        (∀ x ∈ mid, x.type ≠ str "dialogue") →
        c.dialogue_index ≤ d.dialogue_index) := by
  constructor
  · unfold parse_structured_script
    rw [parseLoop_dialogue_seq]
    rw [List.pairwise_map]
    exact (List.pairwise_lt_range' _ _).imp (fun h => Int.ofNat_lt.mpr h)
  · intro H pre mid post c d heq hcnd hd _hmid
    have herase : parse_structured_script text = (parseIdx text).map Prod.snd :=
      parseLoop_eq_map_snd (splitLines text) (dialogueIndices (splitLines text))
        (enumL 0 (splitLines text)) 0
    rw [herase] at heq
    obtain ⟨P1, P2, hP, _hm1, hm2⟩ := map_eq_append_split heq
    cases P2 with
    | nil => simp at hm2
    | cons pc P2' =>
      simp only [List.map_cons, List.cons.injEq] at hm2
      obtain ⟨hc2, hm2'⟩ := hm2
      obtain ⟨PM, P3, hP2', _hmm, hm3⟩ := map_eq_append_split hm2'
      cases P3 with
      | nil => simp at hm3
      | cons pd P3' =>
        simp only [List.map_cons, List.cons.injEq] at hm3
        obtain ⟨hd2, _hm3'⟩ := hm3
        have hfull : parseIdx text = (P1 ++ pc :: PM) ++ pd :: P3' := by
          rw [hP, hP2']
          simp
        have hpair := parseIdx_pairwise_fst text
        rw [hfull] at hpair
        have hi : pc.1 < pd.1 :=
          (List.pairwise_append.mp hpair).2.2 pc (by simp) pd (by simp)
        have hmemc : pc ∈ parseIdx text := by rw [hfull]; simp
        have hmemd : pd ∈ parseIdx text := by rw [hfull]; simp
        have hcv := parseLoopIdx_nonDialogue (splitLines text)
          (dialogueIndices (splitLines text)) (enumL 0 (splitLines text)) 0
          pc hmemc (by rw [hc2]; exact hcnd)
        have hdv := parseLoopIdx_dialogue_count (splitLines text) H
          (splitLines text) 0 0 (by simp) (by simp [countLt])
          pd hmemd (by rw [hd2]; exact hd)
        rw [lastDialogueIndex_eq_precedingRank _ (dialogueIndices_sorted _),
          precedingRank_eq] at hcv
        have hmono : countLt (dialogueIndices (splitLines text)) pc.1
            ≤ countLt (dialogueIndices (splitLines text)) pd.1 :=
          countLt_mono _ (Nat.le_of_lt hi)
        rw [← hc2, ← hd2, hcv, hdv]
        omega

/-- Witness for C7 at the spec's worked example: the b-roll cue (index 0)
precedes the dialogue cue `"Goodbye"` (index 1), and `0 ≤ 1`. -/
theorem C7_index_monotonicity_witness :
    (⟨str "b-roll", str "[office shot]", 0⟩ : Cue).dialogue_index ≤
      (⟨str "dialogue", str "Goodbye", 1⟩ : Cue).dialogue_index :=
  (C7_index_monotonicity
      (str "dialogue:\nHello world\nb-roll:\n[office shot]\ndialogue:\nGoodbye")).2
    (by decide) [⟨str "dialogue", str "Hello world", 0⟩] [] []
    ⟨str "b-roll", str "[office shot]", 0⟩ ⟨str "dialogue", str "Goodbye", 1⟩
    (by decide) (by decide) (by decide) (by intro x hx; cases hx)

/-- C8: the parser is a total function (it is a Lean `def`, so it returns
a cue sequence for every input and re-parsing is literally the same
computation); a marker line that is the last line of the text, or whose
following line trims to the empty string, contributes no cue. -/
theorem C8_total_and_skips (text : Str) :
    parse_structured_script text = (parseIdx text).map Prod.snd ∧
    (∀ i : Nat,
      cueMarkers.contains (lowerStr (trimStr ((splitLines text).getD i []))) = true →
      ((splitLines text).length ≤ i + 1 ∨
        (trimStr ((splitLines text).getD (i + 1) [])).isEmpty = true) →
      ∀ c : Cue, (i, c) ∉ parseIdx text) ∧
    parse_structured_script text = parse_structured_script text := by
  refine ⟨parseLoop_eq_map_snd (splitLines text) (dialogueIndices (splitLines text))
      (enumL 0 (splitLines text)) 0, ?_, rfl⟩
  intro i _hmark hbad c hp
  obtain ⟨line, _hmem, _hcont, hlen, hne⟩ :=
    parseLoopIdx_mem_conditions (splitLines text) (dialogueIndices (splitLines text))
      (enumL 0 (splitLines text)) 0 (i, c) hp
  rcases hbad with hb | hb
  · exact absurd hlen (by omega)
  · rw [hb] at hne
    exact Bool.noConfusion hne

/-- Witness for C8: the one-line script `"overlay:"` is a marker line with
no following line; it contributes no cue at line 0. -/
theorem C8_total_and_skips_witness :
    (0, (⟨str "overlay", str "X", 0⟩ : Cue)) ∉ parseIdx (str "overlay:") :=
  (C8_total_and_skips (str "overlay:")).2.1 0 (by decide) (by decide)
    ⟨str "overlay", str "X", 0⟩

/-- C9: a line that is itself a recognised marker can simultaneously serve
as the content of the preceding marker and open its own cue: parsing
`"dialogue:\noverlay:\nX"` yields a dialogue cue with content `"overlay:"`
followed by an overlay cue with content `"X"`. -/
theorem C9_marker_line_as_content :
    parse_structured_script (str "dialogue:\noverlay:\nX") =
      [⟨str "dialogue", str "overlay:", 0⟩, ⟨str "overlay", str "X", 0⟩] := by
  decide

/-! ## The video assembler -/

/-- A JSON-ish value appearing in a cut-list entry: a number, a string, or
some other unusable value (`null` stands for Python `None` and any other
non-numeric, non-string object). -/
inductive JVal where
  | num (q : ℚ)
  | str (s : Str)
  | null
deriving DecidableEq

/-- One cut-list entry `{'start': ..., 'end': ..., 'text': ...}`; `none`
models an absent key (`cut['start']` raises `KeyError`, caught by the
per-cut handler). -/
structure Cut where
  start : Option JVal
  end_ : Option JVal
  text : Option JVal
deriving DecidableEq

/-- Lexicographic `<` on Python strings. -/
def strLt : Str → Str → Bool
  | [], [] => false
  | [], _ :: _ => true
  | _ :: _, [] => false
  | a :: as, b :: bs => decide (a < b) || (a == b && strLt as bs)

/-- Python `end_time > start_time` on cut-list values: numbers compare
numerically, strings lexicographically; any other combination raises
`TypeError` (modelled as `none`), which the per-cut handler turns into a
dropped cut. -/
def jgtVal : JVal → JVal → Option Bool
  | JVal.num a, JVal.num b => some (decide (b < a))
  | JVal.str a, JVal.str b => some (strLt b a)
  | _, _ => none

/-- Python `clip_duration = end_time - start_time` (`src/utils.py` line
252): subtraction succeeds only on numbers; on any other pair — notably
two strings, which may have passed the lexicographic `end > start`
comparison — it raises `TypeError`, caught by the per-cut handler. -/
def jsub : JVal → JVal → Option ℚ
  | JVal.num a, JVal.num b => some (a - b)
  | _, _ => none

/-- Is the value a Python string?  (`dialogue_text.lower()` raises
`AttributeError` on anything else.) -/
def isStrVal : JVal → Bool
  | JVal.str _ => true
  | _ => false

/-- Success oracles for the external MoviePy operations invoked by
`assemble_video`, indexed by the cut's enumeration index where the
operation happens per cut. -/
structure Env where
  subclipOk : Nat → Bool
  bRollLoadOk : Nat → Bool
  subtitleOk : Nat → Bool
  overlayOk : Nat → Bool
  compositeOk : Nat → Bool
  fallbackOk : Nat → Bool
  concatOk : Bool
  logoOk : Bool
  writeOk : Bool

/-- Python truthiness of `matched_b_roll_path` (`None` and the empty
string are falsy). -/
def pathTruthy : Option Str → Bool
  | none => false
  | some s => !s.isEmpty

/-- The inner keyword loop guard of the b-roll matcher:
`if keyword and keyword in dialogue_text.lower()` for some keyword. -/
def anyKeywordHit (textLower : Str) (keywords : List Str) : Bool :=
  keywords.any (fun k => !k.isEmpty && containsSub k textLower)

/-- The b-roll matching loop of `assemble_video` (`src/utils.py` lines
255-262): scan assets in map-iteration order; on the first asset with a
keyword hit, set `matched_b_roll_path = b_roll_files.get(filename)`;
break out of the asset loop as soon as the accumulated path is truthy. -/
def bRollScan (files : List (Str × Str)) (textLower : Str) :
    List (Str × List Str) → Option Str → Option Str
  | [], acc => acc
  | (filename, keywords) :: rest, acc =>
    let acc' := if anyKeywordHit textLower keywords
                then List.lookup filename files else acc
    if pathTruthy acc' then acc' else bRollScan files textLower rest acc'

/-- The complete b-roll matching step for one cut's dialogue text. -/
def matchBRoll (b_roll_keyword_map : List (Str × List Str))
    (b_roll_files : List (Str × Str)) (dialogue_text : Str) : Option Str :=
  bRollScan b_roll_files (lowerStr dialogue_text) b_roll_keyword_map none

/-- Does the keyword map contain any truthy (non-empty) keyword?  With a
non-string dialogue text, the guard `if keyword and keyword in
dialogue_text.lower()` evaluates `.lower()` — and raises
`AttributeError` — exactly when the scan reaches its first truthy
keyword; empty keywords short-circuit the guard.  No match (hence no
break) can occur before the raise, so every keyword of every asset is
reached: the cut is dropped iff some truthy keyword exists anywhere in
the map, and a map with only empty keywords leaves the cut alive. -/
def hasTruthyKeyword (b_roll_keyword_map : List (Str × List Str)) : Bool :=
  b_roll_keyword_map.any (fun e => e.2.any (fun k => !k.isEmpty))

/-- `overlay_map = {cue['dialogue_index']: cue['content'] for cue in
script_cues if cue['type'] == 'overlay'}`: later overlay cues overwrite
earlier ones with the same index, so lookup returns the last one. -/
def overlayLookup (script_cues : List Cue) (k : Int) : Option Str :=
  (((script_cues.filter (fun c => c.type == str "overlay")).reverse).find?
    (fun c => c.dialogue_index == k)).map Cue.content

/-- Observable description of one clip appended to `final_clips`. -/
structure Segment where
  cutIndex : Nat
  usedBRoll : Bool
  hasSubtitle : Bool
  hasOverlay : Bool
  composited : Bool
deriving DecidableEq, Repr

/-- One iteration of the `for i, cut in enumerate(cut_list)` loop of
`assemble_video` (`src/utils.py` lines 248-296): the segment appended to
`final_clips` for this cut, or `none` when the cut contributes nothing
(`end <= start`; a raised `KeyError` on field access, `TypeError` in the
comparison or the duration subtraction, or `AttributeError` at the first
truthy keyword of the b-roll scan when the text is not a string — all
caught by the per-cut handler; a failed sub-clip extraction; or
compositing failure followed by fallback failure).  A failed b-roll load
degrades to the original footage; failed subtitle/overlay layers are
skipped. -/
def processCut (env : Env) (omap : Int → Option Str)
    (b_roll_files : List (Str × Str)) (b_roll_keyword_map : List (Str × List Str))
    (add_subtitles add_b_roll add_overlays : Bool)
    (i : Nat) (cut : Cut) : Option Segment :=
  match cut.start, cut.end_, cut.text with
  | some sv, some ev, some tv =>
    match jgtVal ev sv with
    | some true =>
      match jsub ev sv with
      | none => none
      | some _ =>
        if env.subclipOk i then
          let brollStep : Option (Option Str) :=
            if add_b_roll && !b_roll_keyword_map.isEmpty then
              match tv with
              | JVal.str t => some (matchBRoll b_roll_keyword_map b_roll_files t)
              | _ =>
                if hasTruthyKeyword b_roll_keyword_map then none else some none
            else some none
          match brollStep with
          | none => none
          | some matched =>
            let usedBRoll := pathTruthy matched && env.bRollLoadOk i
            let hasSubtitle := add_subtitles && env.subtitleOk i
            let hasOverlay := add_overlays && (omap (i : Int)).isSome && env.overlayOk i
            if env.compositeOk i then
              some ⟨i, usedBRoll, hasSubtitle, hasOverlay, true⟩
            else if env.fallbackOk i then
              some ⟨i, usedBRoll, false, false, false⟩
            else none
        else none
    | _ => none
  | _, _, _ => none

/-- The whole cut loop of `assemble_video`: at most one segment per cut,
appended in cut-list order, with `i` the enumeration index. -/
def buildClips (env : Env) (omap : Int → Option Str)
    (b_roll_files : List (Str × Str)) (b_roll_keyword_map : List (Str × List Str))
    (add_subtitles add_b_roll add_overlays : Bool) :
    Nat → List Cut → List Segment
  | _, [] => []
  | i, cut :: rest =>
    match processCut env omap b_roll_files b_roll_keyword_map
        add_subtitles add_b_roll add_overlays i cut with
    | some seg => seg :: buildClips env omap b_roll_files b_roll_keyword_map
        add_subtitles add_b_roll add_overlays (i + 1) rest
    | none => buildClips env omap b_roll_files b_roll_keyword_map
        add_subtitles add_b_roll add_overlays (i + 1) rest

/-- Observable outcome of `assemble_video`: the Python return value
(`some path` on success, `none` on failure), whether the final encode
(`write_videofile`) was reached, and whether a logo layer was composited. -/
structure AssembleOut where
  result : Option Str
  encodeAttempted : Bool
  logoApplied : Bool
deriving DecidableEq, Repr

/-- `assemble_video` from `src/utils.py` (lines 202-327), with the MoviePy
operations abstracted by `env`.  Opening the source footage is assumed to
succeed (a failure there raises outside the function's own error handling
and outside the verified scope). -/
def assemble_video (env : Env) (cut_list : List Cut) (script_cues : List Cue)
    (b_roll_files : List (Str × Str)) (b_roll_keyword_map : List (Str × List Str))
    (logo_file : Option Str)
    (add_subtitles add_b_roll add_logo add_overlays : Bool) : AssembleOut :=
  let overlay_map := overlayLookup script_cues
  let final_clips := buildClips env overlay_map b_roll_files b_roll_keyword_map
    add_subtitles add_b_roll add_overlays 0 cut_list
  if final_clips.isEmpty then ⟨none, false, false⟩
  else if !env.concatOk then ⟨none, false, false⟩
  else
    let logoApplied := add_logo && pathTruthy logo_file && env.logoOk
    if env.writeOk then ⟨some (str "CineAI_Final_Output.mp4"), true, logoApplied⟩
    else ⟨none, true, logoApplied⟩

/-- Environment in which every external media operation succeeds. -/
def envAll : Env :=
  ⟨fun _ => true, fun _ => true, fun _ => true, fun _ => true, fun _ => true,
   fun _ => true, true, true, true⟩

example :
    buildClips envAll (fun _ => none) [] [] true false false 0
        [⟨some (JVal.num 1), some (JVal.num 3), some (JVal.str (str "Hello world"))⟩]
      = [⟨0, false, true, false, true⟩] := by decide

example :
    matchBRoll [(str "asset1", [str "cat"]), (str "asset2", [str "dog"])]
        [(str "asset1", str "asset1"), (str "asset2", str "asset2")]
        (str "the cat and the dog")
      = some (str "asset1") := by decide

/-! ## Structural lemmas about the assembler -/

theorem processCut_cutIndex {env : Env} {omap : Int → Option Str}
    {files : List (Str × Str)} {kmap : List (Str × List Str)}
    {subs broll overs : Bool} {i : Nat} {cut : Cut} {seg : Segment}
    (h : processCut env omap files kmap subs broll overs i cut = some seg) :
    seg.cutIndex = i := by
  simp only [processCut] at h
  repeat' split at h
  all_goals try exact Option.noConfusion h
  all_goals simp only [Option.some.injEq] at h
  all_goals subst h
  all_goals rfl

/-- The validation conditions under which `assemble_video` drops a cut
unconditionally: a missing `start`/`end`/`text` key (`KeyError`); a
comparison `end > start` that raises (`TypeError`) or is false; a
duration subtraction `end - start` that raises (`TypeError`, e.g. two
string-typed times that compared lexicographically); or — when b-roll
substitution is enabled and the keyword map contains at least one
non-empty keyword — a `text` value that is not a string
(`dialogue_text.lower()` raises `AttributeError` at the first truthy
keyword of the scan, dropping the whole cut; a non-empty map with only
empty keywords never evaluates `.lower()` and the cut survives). -/
def isDroppedCut (add_b_roll : Bool) (b_roll_keyword_map : List (Str × List Str))
    (cut : Cut) : Bool :=
  match cut.start, cut.end_, cut.text with
  | some sv, some ev, some tv =>
    match jgtVal ev sv with
    | some true =>
      match jsub ev sv with
      | none => true
      | some _ =>
        add_b_roll && !b_roll_keyword_map.isEmpty && !isStrVal tv
          && hasTruthyKeyword b_roll_keyword_map
    | _ => true
  | _, _, _ => true

theorem processCut_dropped {env : Env} {omap : Int → Option Str}
    {files : List (Str × Str)} {kmap : List (Str × List Str)}
    {subs broll overs : Bool} {i : Nat} {cut : Cut}
    (h : isDroppedCut broll kmap cut = true) :
    processCut env omap files kmap subs broll overs i cut = none := by
  obtain ⟨cs, ce, ct⟩ := cut
  cases cs with
  | none => rfl
  | some sv =>
    cases ce with
    | none => rfl
    | some ev =>
      cases ct with
      | none => rfl
      | some tv =>
        cases hj : jgtVal ev sv with
        | none => simp [processCut, hj]
        | some b =>
          cases b with
          | false => simp [processCut, hj]
          | true =>
            cases hsb : jsub ev sv with
            | none => simp [processCut, hj, hsb]
            | some d =>
              simp only [isDroppedCut, hj, hsb, Bool.and_eq_true,
                Bool.not_eq_true'] at h
              obtain ⟨⟨⟨hb, hk⟩, hs⟩, ht⟩ := h
              cases tv with
              | str s => simp [isStrVal] at hs
              | num q =>
                simp only [processCut, hj, hsb, hb, hk, ht]
                cases hsc : env.subclipOk i <;> simp [hsc]
              | null =>
                simp only [processCut, hj, hsb, hb, hk, ht]
                cases hsc : env.subclipOk i <;> simp [hsc]

theorem buildClips_fst_sublist (env : Env) (omap : Int → Option Str)
    (files : List (Str × Str)) (kmap : List (Str × List Str))
    (subs broll overs : Bool) :
    ∀ (cuts : List Cut) (i : Nat),
      ((buildClips env omap files kmap subs broll overs i cuts).map
        Segment.cutIndex).Sublist (List.range' i cuts.length) := by
  intro cuts
  induction cuts with
  | nil => intro i; simp [buildClips]
  | cons cu rest ih =>
    intro i
    simp only [buildClips, List.length_cons, List.range'_succ]
    split
    · rename_i seg heq
      have hseg := processCut_cutIndex heq
      simp only [List.map_cons, hseg]
      exact List.Sublist.cons₂ i (ih (i + 1))
    · exact List.Sublist.cons i (ih (i + 1))

/-! ## Claim theorems about the assembler -/

/-- Counterexample to C2 as stated: a cut whose `text` field holds a
non-string value (here Python `None`) still contributes a segment when
b-roll substitution is disabled, because nothing in the per-cut body
consumes the text value in that configuration (a failed subtitle layer
would only degrade, not drop). -/
theorem C2_counterexample :
    buildClips envAll (fun _ => none) [] [] false false false 0
        [⟨some (JVal.num 0), some (JVal.num 1), some JVal.null⟩]
      = [⟨0, false, false, false, true⟩] := by decide

example :
    buildClips envAll (fun _ => none) [] [(str "a", [[]])] false true false 0
        [⟨some (JVal.num 0), some (JVal.num 1), some JVal.null⟩]
      = [⟨0, false, false, false, true⟩] := by decide

example :
    buildClips envAll (fun _ => none) [] [(str "a", [str "x"])] false true false 0
        [⟨some (JVal.num 0), some (JVal.num 1), some JVal.null⟩]
      = [] := by decide

example :
    buildClips envAll (fun _ => none) [] [] true false true 0
        [⟨some (JVal.str (str "a")), some (JVal.str (str "b")),
          some (JVal.str (str "t"))⟩]
      = [] := by decide

/-- C2 (amended): a cut with `end <= start`, a missing `start`/`end`/`text`
field, a `start`/`end` of unusable type (the comparison or the duration
subtraction raises), or — when b-roll substitution is enabled and the
keyword map contains at least one non-empty keyword — a non-string
`text`, contributes no segment, and processing continues with the
remaining cuts exactly as if the bad cut were absent. -/
theorem C2_invalid_cut_dropped (env : Env) (omap : Int → Option Str)
    (files : List (Str × Str)) (kmap : List (Str × List Str))
    (subs broll overs : Bool) (i : Nat) (cut : Cut) (rest : List Cut)
    (h : isDroppedCut broll kmap cut = true) :
    buildClips env omap files kmap subs broll overs i (cut :: rest)
      = buildClips env omap files kmap subs broll overs (i + 1) rest := by
  simp [buildClips, processCut_dropped h]

/-- Witness for C2: a cut with `end <= start` (start 3, end 1) is dropped
and the following valid cut is still processed. -/
theorem C2_invalid_cut_dropped_witness :
    buildClips envAll (fun _ => none) [] [] true false true 0
        [⟨some (JVal.num 3), some (JVal.num 1), some (JVal.str (str "x"))⟩,
         ⟨some (JVal.num 0), some (JVal.num 1), some (JVal.str (str "ok"))⟩]
      = buildClips envAll (fun _ => none) [] [] true false true 1
          [⟨some (JVal.num 0), some (JVal.num 1), some (JVal.str (str "ok"))⟩] :=
  C2_invalid_cut_dropped envAll (fun _ => none) [] [] true false true 0
    ⟨some (JVal.num 3), some (JVal.num 1), some (JVal.str (str "x"))⟩
    [⟨some (JVal.num 0), some (JVal.num 1), some (JVal.str (str "ok"))⟩]
    (by decide)

/-- C3: the composed-segment sequence is never longer than the cut list
and is an order-preserving subsequence of it: the segments' cut indices
form a sublist of `0, ..., n-1`, are strictly increasing, and each names
an actual cut; dropped cuts leave no placeholder. -/
theorem C3_segments_subsequence (env : Env) (omap : Int → Option Str)
    (files : List (Str × Str)) (kmap : List (Str × List Str))
    (subs broll overs : Bool) (cuts : List Cut) :
    ((buildClips env omap files kmap subs broll overs 0 cuts).map
        Segment.cutIndex).Sublist (List.range cuts.length) ∧
    (buildClips env omap files kmap subs broll overs 0 cuts).length ≤ cuts.length ∧
    List.Pairwise (fun s t : Segment => s.cutIndex < t.cutIndex)
      (buildClips env omap files kmap subs broll overs 0 cuts) ∧
    ∀ s ∈ buildClips env omap files kmap subs broll overs 0 cuts,
      s.cutIndex < cuts.length := by
  have hsub := buildClips_fst_sublist env omap files kmap subs broll overs cuts 0
  rw [← List.range_eq_range'] at hsub
  refine ⟨hsub, ?_, ?_, ?_⟩
  · have := hsub.length_le
    simpa using this
  · exact List.pairwise_map.mp
      (List.Pairwise.sublist hsub (List.pairwise_lt_range cuts.length))
  · intro s hs
    have : s.cutIndex ∈ List.range cuts.length :=
      hsub.mem (List.mem_map_of_mem Segment.cutIndex hs)
    exact List.mem_range.mp this

/-- Witness for C3's membership clause at a one-cut list. -/
theorem C3_segments_subsequence_witness :
    (⟨0, false, false, false, true⟩ : Segment).cutIndex <
      ([⟨some (JVal.num 0), some (JVal.num 1), some (JVal.str (str "ok"))⟩] :
        List Cut).length :=
  (C3_segments_subsequence envAll (fun _ => none) [] [] false false false
      [⟨some (JVal.num 0), some (JVal.num 1), some (JVal.str (str "ok"))⟩]).2.2.2
    ⟨0, false, false, false, true⟩ (by decide)

/-- C4: if no usable segment survives, `assemble_video` returns `none` and
never reaches the encode step; and the assembly fails (returns `none`)
exactly when no segment survives, the concatenation fails, or the final
encode fails — logo failure is never fatal. -/
theorem C4_failure_conditions (env : Env) (cut_list : List Cut)
    (script_cues : List Cue) (files : List (Str × Str))
    (kmap : List (Str × List Str)) (logo_file : Option Str)
    (subs broll logo overs : Bool) :
    (buildClips env (overlayLookup script_cues) files kmap subs broll overs 0
        cut_list = [] →
      (assemble_video env cut_list script_cues files kmap logo_file subs broll
        logo overs).result = none ∧
      (assemble_video env cut_list script_cues files kmap logo_file subs broll
        logo overs).encodeAttempted = false) ∧
    ((assemble_video env cut_list script_cues files kmap logo_file subs broll
        logo overs).result = none ↔
      buildClips env (overlayLookup script_cues) files kmap subs broll overs 0
        cut_list = [] ∨ env.concatOk = false ∨ env.writeOk = false) := by
  constructor
  · intro h
    constructor <;> simp [assemble_video, h]
  · by_cases h1 : buildClips env (overlayLookup script_cues) files kmap subs broll
        overs 0 cut_list = []
    · simp [assemble_video, h1]
    · have h1' : (buildClips env (overlayLookup script_cues) files kmap subs broll
          overs 0 cut_list).isEmpty = false := by
        cases hb : (buildClips env (overlayLookup script_cues) files kmap subs broll
            overs 0 cut_list).isEmpty
        · rfl
        · exact absurd (List.isEmpty_iff.mp hb) h1
      cases h2 : env.concatOk <;> cases h3 : env.writeOk <;>
        simp [assemble_video, h1', h1, h2, h3]

/-- Witness for C4 at the empty cut list: no segments survive, the result
is `none` and the encoder is never invoked. -/
theorem C4_failure_conditions_witness :
    (assemble_video envAll [] [] [] [] none true true true true).result = none ∧
    (assemble_video envAll [] [] [] [] none true true true true).encodeAttempted
      = false :=
  (C4_failure_conditions envAll [] [] [] [] none true true true true).1 (by decide)

theorem any_congr {α : Type} {l : List α} {p q : α → Bool}
    (h : ∀ x ∈ l, p x = q x) : l.any p = l.any q := by
  induction l with
  | nil => rfl
  | cons a t ih =>
    simp only [List.any_cons]
    rw [h a (List.mem_cons_self a t), ih (fun x hx => h x (List.mem_cons_of_mem a hx))]

/-- Modelled from the spec: "iterate asset entries in map-iteration order;
the first asset whose any keyword (case-insensitive substring test)
appears in the dialogue text wins — first match wins, no scoring". -/
def specFirstMatch (b_roll_keyword_map : List (Str × List Str))
    (dialogue_text : Str) : Option Str :=
  (b_roll_keyword_map.find? (fun e =>
    e.2.any (fun k => containsSub (lowerStr k) (lowerStr dialogue_text)))).map
    Prod.fst

theorem bRollScan_spec (files : List (Str × Str)) (dialogue_text : Str) :
    ∀ (kmap : List (Str × List Str)),
      (∀ e ∈ kmap, ∀ k ∈ e.2, lowerStr k = k ∧ k ≠ []) →
      (∀ e ∈ kmap, pathTruthy (List.lookup e.1 files) = true) →
      bRollScan files (lowerStr dialogue_text) kmap none
        = (specFirstMatch kmap dialogue_text).bind
            (fun a => List.lookup a files) := by
  intro kmap
  induction kmap with
  | nil => intro _ _; rfl
  | cons e rest ih =>
    intro hkw hfiles
    obtain ⟨a, kws⟩ := e
    have hpred : anyKeywordHit (lowerStr dialogue_text) kws
        = kws.any (fun k => containsSub (lowerStr k) (lowerStr dialogue_text)) := by
      unfold anyKeywordHit
      apply any_congr
      intro k hk
      obtain ⟨hl, hne⟩ := hkw (a, kws) (List.mem_cons_self _ _) k hk
      have hemp : k.isEmpty = false := by
        cases k with
        | nil => exact absurd rfl hne
        | cons c r => rfl
      rw [hl, hemp]
      simp
    cases hhit : kws.any
        (fun k => containsSub (lowerStr k) (lowerStr dialogue_text)) with
    | true =>
      have htr := hfiles (a, kws) (List.mem_cons_self _ _)
      simp only [bRollScan, hpred, hhit, if_true]
      rw [specFirstMatch, List.find?_cons_of_pos _ (by simpa using hhit)]
      simp [htr]
    | false =>
      simp only [bRollScan, hpred, hhit]
      rw [specFirstMatch, List.find?_cons_of_neg _ (by simpa using hhit)]
      have hrec := ih (fun e he => hkw e (List.mem_cons_of_mem _ he))
        (fun e he => hfiles e (List.mem_cons_of_mem _ he))
      simpa [pathTruthy, specFirstMatch] using hrec

/-- C5: under the data-model invariants (keywords are lowercase and
non-empty; every keyword-map key resolves to a truthy path in
`b_roll_files`), the b-roll matcher selects exactly the first asset in
map-iteration order that has any keyword which is a case-insensitive
substring of the dialogue text, and selects nothing when no keyword
matches or the map is empty; in particular, for
`{"asset1": ["cat"], "asset2": ["dog"]}` and dialogue text
`"the cat and the dog"`, asset1 is selected and never asset2. -/
theorem C5_first_match_policy (kmap : List (Str × List Str))
    (files : List (Str × Str)) (dialogue_text : Str)
    (hkw : ∀ e ∈ kmap, ∀ k ∈ e.2, lowerStr k = k ∧ k ≠ [])
    (hfiles : ∀ e ∈ kmap, pathTruthy (List.lookup e.1 files) = true) :
    matchBRoll kmap files dialogue_text
      = (specFirstMatch kmap dialogue_text).bind (fun a => List.lookup a files) ∧
    matchBRoll [(str "asset1", [str "cat"]), (str "asset2", [str "dog"])]
        [(str "asset1", str "asset1"), (str "asset2", str "asset2")]
        (str "the cat and the dog")
      = some (str "asset1") :=
  ⟨bRollScan_spec files dialogue_text kmap hkw hfiles, by decide⟩

/-- Witness for C5 at the spec's own keyword map and dialogue text. -/
theorem C5_first_match_policy_witness :
    matchBRoll [(str "asset1", [str "cat"]), (str "asset2", [str "dog"])]
        [(str "asset1", str "asset1"), (str "asset2", str "asset2")]
        (str "the cat and the dog")
      = (specFirstMatch [(str "asset1", [str "cat"]), (str "asset2", [str "dog"])]
          (str "the cat and the dog")).bind
          (fun a => List.lookup a
            [(str "asset1", str "asset1"), (str "asset2", str "asset2")]) :=
  (C5_first_match_policy
    [(str "asset1", [str "cat"]), (str "asset2", [str "dog"])]
    [(str "asset1", str "asset1"), (str "asset2", str "asset2")]
    (str "the cat and the dog") (by decide) (by decide)).1

/-- C10: an empty keyword never matches any dialogue text — the guard
`if keyword and keyword in dialogue_text.lower()` skips it — even though
the empty string is a substring of every string (first conjunct); hence an
asset all of whose keywords are empty strings is transparent to the
matching loop and never selected. -/
theorem C10_empty_keyword_never_matches (files : List (Str × Str))
    (dialogue_text : Str) (a : Str) (kws : List Str)
    (rest : List (Str × List Str)) (hkws : ∀ k ∈ kws, k = []) :
    containsSub [] (lowerStr dialogue_text) = true ∧
    anyKeywordHit (lowerStr dialogue_text) kws = false ∧
    matchBRoll ((a, kws) :: rest) files dialogue_text
      = matchBRoll rest files dialogue_text := by
  have hsub : ∀ l : Str, containsSub [] l = true := by
    intro l
    cases l with
    | nil => rfl
    | cons c r => simp [containsSub, List.isPrefixOf]
  have hhit : anyKeywordHit (lowerStr dialogue_text) kws = false := by
    unfold anyKeywordHit
    rw [List.any_eq_false]
    intro k hk
    rw [hkws k hk]
    simp
  refine ⟨hsub _, hhit, ?_⟩
  unfold matchBRoll
  simp [bRollScan, hhit, pathTruthy]

/-- Witness for C10: the asset `"a"` with the single empty keyword is
skipped for the dialogue text `"hello"` although `""` is a substring of
`"hello"`. -/
theorem C10_empty_keyword_never_matches_witness :
    containsSub [] (lowerStr (str "hello")) = true ∧
    anyKeywordHit (lowerStr (str "hello")) [[]] = false ∧
    matchBRoll [(str "a", [[]])] [(str "a", str "p")] (str "hello")
      = matchBRoll [] [(str "a", str "p")] (str "hello") :=
  C10_empty_keyword_never_matches [(str "a", str "p")] (str "hello")
    (str "a") [[]] [] (by decide)
